import Mathlib

/-!
Verification of the keyboard-proximity typo-injection engine of the
`pl-llm-errors` repository (files `src/multypo/core.py` and
`src/errors/typo_error_generator.py`, which are near-duplicates; the
`typo_error_generator.py` copy additionally carries the diacritic /
alternate-grid data used by the Neighbor Resolver).

Modelling conventions:
* Python `str` is modelled as `Str := List Char`; `list(word)` becomes a
  list of one-character strings (`pyList`), `"".join` is `List.flatten`.
* Python floats are modelled as exact rationals `ℚ`.  `math.sqrt` is
  modelled by the fixed-precision rational square root `msqrt` (exact on
  perfect squares, which is all the proofs below depend on).  `int(x)`
  truncates toward zero (`itrunc`), `round` is banker's rounding
  (`pyRound`), and the repository's `_round_it` is `roundIt`.
* `random.choices(pop, weights=w, k=1)` draws one uniform value
  `r ∈ [0,1)` and selects by cumulative weights with
  `bisect.bisect(cum, r*total, 0, len-1)`; it raises (modelled by
  `Option.none`) when the total weight is not positive.  `random.choice`
  draws one uniform value and indexes uniformly.  The random source is an
  abstract stream `g : ℕ → ℚ` together with a counter for the next unused
  draw; every primitive draw consumes one stream position.
* A rational division by zero (Lean convention `q / 0 = 0`) only occurs in
  `getWeightsOfIdx 0`, where Python raises `ZeroDivisionError`; every call
  site immediately feeds the resulting all-zero weights to a sampling
  call whose zero total raises in Python and yields `none` here, so the
  observable (erroring) behaviour agrees.
* Python exceptions escaping `insert_typos` are modelled by `Option.none`.
* Bound-method comparisons: the source stores bound methods (in
  `typo_funcs` and in the word history) and later compares them with
  `is` against freshly created `self._X` attributes.  Attribute access
  on an instance method allocates a new bound-method object, so those
  identity tests are always false (`methodIs`); `==`-based set
  membership on bound methods of one instance does compare method kinds
  (`methodEq`).
-/

/-- Python `str`: a list of characters. -/
abbrev Str := List Char

/-- Python `list(word)`: the word as a list of one-character strings. -/
def pyList (s : Str) : List Str := s.map (fun c => [c])

/-- Python `"".join(parts)`. -/
def pyJoin (l : List Str) : Str := l.flatten

/-- Python `s.lower()` (ASCII-faithful model of `str.lower`). -/
def pyLower (s : Str) : Str := s.map Char.toLower

/-- Python `s.upper()` (ASCII-faithful model of `str.upper`). -/
def pyUpper (s : Str) : Str := s.map Char.toUpper

/-- Python `s.isupper()` for the one-character strings it is applied to. -/
def pyIsUpper (s : Str) : Bool := s.any Char.isUpper

/-- Does `hay` start with `needle`? (helper for the substring test). -/
def strStartsWith : Str → Str → Bool
  | [], _ => true
  | _ :: _, [] => false
  | a :: as, b :: bs => a = b && strStartsWith as bs

/-- Python `needle in hay` on strings: substring containment. -/
def pyInStr (needle : Str) : Str → Bool
  | [] => strStartsWith needle []
  | c :: rest => strStartsWith needle (c :: rest) || pyInStr needle rest

/-- Python `text.split(" ")`: split at every single space, keeping empties. -/
def pySplitSpace : Str → List Str
  | [] => [[]]
  | c :: rest =>
    if c = ' ' then [] :: pySplitSpace rest
    else
      match pySplitSpace rest with
      | w :: ws => (c :: w) :: ws
      | [] => [[c]]

/-- Python `s.strip()`: remove leading and trailing whitespace. -/
def pyStrip (s : Str) : Str :=
  ((s.dropWhile Char.isWhitespace).reverse.dropWhile Char.isWhitespace).reverse

/-- Python `int(q)`: truncation toward zero (`Rat.floor` is the
computable floor; it equals `⌊q⌋`). -/
def itrunc (q : ℚ) : ℤ := if 0 ≤ q then q.floor else -(-q).floor

/-- Python 3 `round(q)`: round half to even (banker's rounding). -/
def pyRound (q : ℚ) : ℤ :=
  let fl := q.floor
  if q - fl < 1/2 then fl
  else if 1/2 < q - fl then fl + 1
  else if fl % 2 = 0 then fl else fl + 1

/-- The repository's `_round_it(number, position)`:
`int(number * factor + 0.5) / factor` with `factor = 10 ** position`. -/
def roundIt (q : ℚ) (position : ℕ) : ℚ :=
  let factor : ℚ := 10 ^ position
  (itrunc (q * factor + 1/2) : ℚ) / factor

/-- Integer square root by bisection (fuel-based, kernel-reducible);
maintains `lo ^ 2 ≤ n < hi ^ 2`. -/
def isqrtGo (n : ℕ) : ℕ → ℕ → ℕ → ℕ
  | 0, lo, _ => lo
  | fuel + 1, lo, hi =>
    let mid := (lo + hi) / 2
    if mid = lo then lo
    else if mid * mid ≤ n then isqrtGo n fuel mid hi
    else isqrtGo n fuel lo mid

/-- Integer square root (floor). -/
def isqrt (n : ℕ) : ℕ := isqrtGo n 64 0 (n + 1)

/-- Fixed-precision rational model of `math.sqrt` (exact on perfect
squares; nonnegative; zero exactly on nonpositive input). -/
def msqrt (q : ℚ) : ℚ :=
  (isqrt (q.num.toNat * 10 ^ 12 / q.den) : ℚ) / 10 ^ 6

/-- Cumulative weights, as computed by `itertools.accumulate`. -/
def cumWeightsAux (acc : ℚ) : List ℚ → List ℚ
  | [] => []
  | w :: ws => (acc + w) :: cumWeightsAux (acc + w) ws

/-- Cumulative weights of a weight list. -/
def cumWeights (l : List ℚ) : List ℚ := cumWeightsAux 0 l

/-- `bisect.bisect(cum, x, 0, len(cum) - 1)`: the first index `i` below
`len - 1` with `x < cum[i]`, else `len - 1`. -/
def bisectIdx : List ℚ → ℚ → ℕ
  | [], _ => 0
  | [_], _ => 0
  | c :: c' :: rest, x => if x < c then 0 else bisectIdx (c' :: rest) x + 1

/-- `random.choices(pop, weights, k=1)` reduced to the selected index.
Returns `none` (raises) when the total weight is not positive; the drawn
uniform value is `r`. -/
def randomChoicesIdx (weights : List ℚ) (r : ℚ) : Option ℕ :=
  let total := weights.sum
  if total ≤ 0 then none
  else some (bisectIdx (cumWeights weights) (r * total))

/-- `random.choice(seq)` reduced to the selected index for a sequence of
length `n`, drawing the uniform value `r`. -/
def randomChoiceIdx (n : ℕ) (r : ℚ) : ℕ :=
  min (itrunc (r * (n : ℚ))).toNat (n - 1)

/-- The four edit-operation kinds (`delete`, `insert`, `replace`,
`transpose`), replacing Python's identity comparison of bound methods. -/
inductive OpKind where
  | delete
  | insert
  | replace
  | transpose
deriving DecidableEq, Repr

/-- `typo_funcs[typo_name]` dictionary lookup; `none` models `KeyError`. -/
def opKindOfName (s : Str) : Option OpKind :=
  if s = "delete".toList then some OpKind.delete
  else if s = "insert".toList then some OpKind.insert
  else if s = "replace".toList then some OpKind.replace
  else if s = "transpose".toList then some OpKind.transpose
  else none

/-- The engine configuration and keyboard data held by `_TypoEngine` /
`MultiTypoGenerator` after `__post_init__`. -/
structure Engine where
  keyboard : List (List Str)
  altgrKeyboard : Option (List (List Str))
  diacriticalMap : List (Str × Str)
  leftRight : List Str × List Str
  ignoreSet : List Str
  typoDistribution : List (Str × ℚ)
  horizontalVsVertical : ℚ × ℚ
  useExcludingSet : Bool

/-- `dict.get` on an association list (the diacritical map). -/
def dictGet (d : List (Str × Str)) (k : Str) : Option Str :=
  (d.find? (fun p => p.1 = k)).map (fun p => p.2)

/-- One grid cell's contribution of a repeated neighbour candidate:
`[key] * max(1, int(round(weight)))`, skipped when the cell is empty. -/
def neighbourRepeat (key : Str) (weight : ℚ) : List Str :=
  if key ≠ [] then List.replicate (max 1 (pyRound weight).toNat) key else []

/-- The neighbour-candidate collection over a fixed grid: for every cell
equal to `ch`, the left/right row neighbours repeated by the horizontal
weight and the up/down column neighbours repeated by the vertical
weight. -/
def searchGrid (grid : List (List Str)) (hWeight vWeight : ℚ) (ch : Str) : List Str :=
  let positions := grid.enum.flatMap (fun rc =>
    rc.2.enum.filterMap (fun ck => if ck.2 = ch then some (rc.1, ck.1) else none))
  if positions = [] then []
  else positions.flatMap (fun rc =>
    let rIdx := rc.1
    let cIdx := rc.2
    let row := grid.getD rIdx []
    (if 0 < cIdx then neighbourRepeat (row.getD (cIdx - 1) []) hWeight else [])
    ++ (if cIdx < row.length - 1 then neighbourRepeat (row.getD (cIdx + 1) []) hWeight else [])
    ++ (if 0 < rIdx ∧ cIdx < (grid.getD (rIdx - 1) []).length then
          neighbourRepeat ((grid.getD (rIdx - 1) []).getD cIdx []) vWeight else [])
    ++ (if rIdx < grid.length - 1 ∧ cIdx < (grid.getD (rIdx + 1) []).length then
          neighbourRepeat ((grid.getD (rIdx + 1) []).getD cIdx []) vWeight else []))

/-- `_get_neighbours_with_orientation(char)`: when `char` is a key of the
diacritical (base-character) map and an alternate grid is configured, the
alternate grid is searched; otherwise the primary grid. -/
def getNeighboursWithOrientation (eng : Engine) (ch : Str) : List Str :=
  let hWeight := eng.horizontalVsVertical.1
  let vWeight := eng.horizontalVsVertical.2
  let grid :=
    match dictGet eng.diacriticalMap ch, eng.altgrKeyboard with
    | some _, some alt => alt
    | _, _ => eng.keyboard
  searchGrid grid hWeight vWeight ch

/-- `_get_weights_of_idx`: the position weighter.  The Python function
only uses `len(word)`, so it takes the length directly (the transpose
operation passes a list of pairs). -/
def getWeightsOfIdx (n : ℕ) : List ℚ :=
  if n = 1 then [0]
  else if n = 2 then [0, 1]
  else
    let weights : List ℚ :=
      (0 : ℚ) :: (List.range (n - 1)).map
        (fun i : ℕ => 1/10 + (2/10 - 1/10) * ((i : ℚ) / ((n : ℚ) - 2)))
    weights.map (fun p => roundIt (p / weights.sum) 2)

/-- `_belongs_to_hand(char)`. -/
def belongsToHand (eng : Engine) (ch : Str) : Option Str :=
  if eng.leftRight.1.contains ch then some "left".toList
  else if eng.leftRight.2.contains ch then some "right".toList
  else none

/-- The largest `i < idx` with `word_list[i] ≠ word_list[idx]`: the first
index reached by the backward scan `for i in range(idx-1, -1, -1)` whose
character differs from the sampled one. -/
def firstDiffBack (wl : List Str) (idx : ℕ) : Option ℕ :=
  (List.range idx).reverse.find? (fun i => wl.getD i [] ≠ wl.getD idx [])

/-- `_replace(word)`.  Result: `((new word, touched indices), next rng
position)`; `none` models a raised exception. -/
def pyReplace (eng : Engine) (g : ℕ → ℚ) (k : ℕ) (word : Str) :
    Option ((Str × Option (List ℤ)) × ℕ) :=
  let wordList := pyList word
  let weights := getWeightsOfIdx word.length
  match randomChoicesIdx weights (g k) with
  | none => none
  | some idx =>
    let ch := wordList.getD idx []
    let neighbours := getNeighboursWithOrientation eng (pyLower ch)
    if neighbours ≠ [] then
      let replacement0 := neighbours.getD (randomChoiceIdx neighbours.length (g (k + 1))) []
      let replacement := if pyIsUpper ch then pyUpper replacement0 else replacement0
      match firstDiffBack wordList idx with
      | some i =>
        if idx - i = 2 then
          some ((pyJoin ((wordList.set (i + 1) replacement).set idx replacement),
                 some [(idx : ℤ)]), k + 2)
        else
          let wl1 := if idx ≠ wordList.length - 1 ∧ wordList.getD idx [] = wordList.getD (idx + 1) []
            then wordList.set (idx + 1) replacement else wordList
          some ((pyJoin (wl1.set idx replacement), some [(idx : ℤ)]), k + 2)
      | none =>
        let wl1 := if idx ≠ wordList.length - 1 ∧ wordList.getD idx [] = wordList.getD (idx + 1) []
          then wordList.set (idx + 1) replacement else wordList
        some ((pyJoin (wl1.set idx replacement), some [(idx : ℤ)]), k + 2)
    else some ((pyJoin wordList, some [(idx : ℤ)]), k + 1)

/-- `_delete(word)`. -/
def pyDelete (eng : Engine) (g : ℕ → ℚ) (k : ℕ) (word : Str) :
    Option ((Str × Option (List ℤ)) × ℕ) :=
  let wordList := pyList word
  let weights := getWeightsOfIdx word.length
  match randomChoicesIdx weights (g k) with
  | none => none
  | some idx => some ((pyJoin (wordList.eraseIdx idx), some [(idx : ℤ)]), k + 1)

/-- `_insert(word)`: resolve a neighbour of the sampled character and
insert it immediately after the sampled index. -/
def pyInsert (eng : Engine) (g : ℕ → ℚ) (k : ℕ) (word : Str) :
    Option ((Str × Option (List ℤ)) × ℕ) :=
  let wordList := pyList word
  let weights := getWeightsOfIdx word.length
  match randomChoicesIdx weights (g k) with
  | none => none
  | some idx =>
    let ch := wordList.getD idx []
    let neighbours := getNeighboursWithOrientation eng (pyLower ch)
    if neighbours ≠ [] then
      let inserted0 := neighbours.getD (randomChoiceIdx neighbours.length (g (k + 1))) []
      let inserted := if pyIsUpper ch then pyUpper inserted0 else inserted0
      some ((pyJoin (wordList.insertIdx (idx + 1) inserted), some [(idx : ℤ) + 1]), k + 2)
    else some ((pyJoin wordList, some [(idx : ℤ) + 1]), k + 1)

/-- The eligible adjacent pairs `(i, i+1)` inside `word[1:]` whose two
characters belong to different hands, or whose second character is a
space. -/
def transposablePairs (eng : Engine) (word : Str) : List (ℕ × ℕ) :=
  let wordList := pyList (word.drop 1)
  (List.range (wordList.length - 1)).filterMap (fun i =>
    let firstHand := belongsToHand eng (pyLower (wordList.getD i []))
    let secondHand := belongsToHand eng (pyLower (wordList.getD (i + 1) []))
    if (firstHand.isSome ∧ secondHand.isSome ∧ firstHand ≠ secondHand)
        ∨ wordList.getD (i + 1) [] = [' ']
    then some (i, i + 1) else none)

/-- `_transpose(word)`: the first character is held fixed; candidate
pairs are weighted through `getWeightsOfIdx` applied to the pair list's
length. -/
def pyTranspose (eng : Engine) (g : ℕ → ℚ) (k : ℕ) (word : Str) :
    Option ((Str × Option (List ℤ)) × ℕ) :=
  let wordList := pyList (word.drop 1)
  if word.length ≤ 1 then some ((word, none), k)
  else
    let transposable := transposablePairs eng word
    if transposable = [] then some ((word, none), k)
    else
      let weights := getWeightsOfIdx transposable.length
      if weights.sum = 0 then some ((word, none), k)
      else
        match randomChoicesIdx weights (g k) with
        | none => none
        | some j =>
          let pair := transposable.getD j (0, 0)
          let swapped := (wordList.set pair.1 (wordList.getD pair.2 [])).set pair.2
            (wordList.getD pair.1 [])
          some ((word.take 1 ++ pyJoin swapped, some [(pair.1 : ℤ), (pair.2 : ℤ)]), k + 1)

/-- Dispatch of an operation kind to its edit function (the
`typo_funcs` table). -/
def applyOp (eng : Engine) (op : OpKind) (g : ℕ → ℚ) (k : ℕ) (word : Str) :
    Option ((Str × Option (List ℤ)) × ℕ) :=
  match op with
  | OpKind.delete => pyDelete eng g k word
  | OpKind.insert => pyInsert eng g k word
  | OpKind.replace => pyReplace eng g k word
  | OpKind.transpose => pyTranspose eng g k word

/-- Python `stored is self._X` between a bound method kept in
`typo_funcs` / the word history and a freshly created `self._X`: every
attribute access on an instance method allocates a new bound-method
object, so the two operands are always distinct objects and the identity
test is always false, whatever the two methods are. -/
def methodIs (_stored _fresh : OpKind) : Bool := false

/-- Python `==` (and hence set membership such as
`typo_function in {self._replace, self._delete}`) on bound methods of
the same instance: method equality compares `__func__` and `__self__`,
so it holds exactly when the two are the same method kind. -/
def methodEq (a b : OpKind) : Bool := decide (a = b)

/-- Does one prior history entry `(prevOp, prevIdx)` trigger a rejection
of the proposal `(op, idxs)`?  Direct translation of the rule table in
`_is_valid_operation`'s loop body: the `X is self._Y` guards are
`methodIs` (always false — the table is dead code in the source), the
set-membership tests are `methodEq`. -/
def entryRejects (prevOp : OpKind) (prevIdx : List ℤ) (idxs : List ℤ) (op : OpKind) : Bool :=
  (methodIs prevOp OpKind.replace &&
    ((methodIs op OpKind.insert && decide (prevIdx.getD 0 0 + 1 = idxs.getD 0 0))
      || decide (prevIdx = idxs)
      || prevIdx.any (fun i => decide (i ∈ idxs))))
  || (methodIs prevOp OpKind.delete &&
    (methodIs op OpKind.transpose && decide (prevIdx.getD 0 0 = idxs.getD 1 0)))
  || (methodIs prevOp OpKind.insert &&
    (((methodEq op OpKind.replace || methodEq op OpKind.delete)
        && (decide (prevIdx = idxs) || decide (prevIdx.getD 0 0 - 1 = idxs.getD 0 0)))
      || (methodIs op OpKind.insert
        && (decide (prevIdx = idxs) || decide (prevIdx.getD 0 0 + 1 = idxs.getD 0 0)))
      || (methodIs op OpKind.transpose
        && (decide (prevIdx = idxs) || prevIdx.any (fun i => decide (i ∈ idxs))))))
  || (methodIs prevOp OpKind.transpose &&
    ((methodEq op OpKind.transpose || methodEq op OpKind.insert
        || methodEq op OpKind.delete)
      && (decide (prevIdx = idxs) || prevIdx.any (fun i => decide (i ∈ idxs)))))

/-- `_is_valid_operation(word_history, idxs, typo_function)`.  `hist` is
`word_history[1:]`, i.e. the entries after the vacuous initial entry (the
word string itself); `len(word_history) == 1` is the `hist = []` case.
Because every outer guard of `entryRejects` is a dead bound-method
identity test, this function returns `true` on every input. -/
def isValidOperation (hist : List (OpKind × List ℤ)) (idxs : List ℤ) (op : OpKind) : Bool :=
  if hist.isEmpty then true
  else hist.all (fun e => !entryRejects e.1 e.2 idxs op)

/-- `_KEYBOARD`: the primary Polish (QWERTY programmers) grid. -/
def polishKeyboard : List (List Str) :=
  [["q", "w", "e", "r", "t", "y", "u", "i", "o", "p"].map String.toList,
   ["a", "s", "d", "f", "g", "h", "j", "k", "l"].map String.toList,
   ["z", "x", "c", "v", "b", "n", "m"].map String.toList]

/-- `_ALTGR_KEYBOARD`: the alternate (AltGr) grid. -/
def polishAltgrKeyboard : List (List Str) :=
  [["q", "w", "ę", "r", "t", "y", "u", "i", "ó", "p"].map String.toList,
   ["ą", "ś", "d", "f", "g", "h", "j", "k", "ł"].map String.toList,
   ["ż", "ź", "ć", "v", "b", "ń", "m"].map String.toList]

/-- `_LEFT_RIGHT`: the hand partition. -/
def polishLeftRight : List Str × List Str :=
  (["q", "w", "e", "r", "t", "a", "s", "d", "f", "g", "z", "x", "c", "v", "b",
    "ę", "ą", "ś", "ć", "ż", "ź"].map String.toList,
   ["y", "u", "i", "o", "p", "h", "j", "k", "l", "n", "m",
    "ó", "ł", "ń"].map String.toList)

/-- `_DIACRITICAL_MAP`: the base-character table for the alternate grid. -/
def polishDiacriticalMap : List (Str × Str) :=
  [("ą", "a"), ("ę", "e"), ("ś", "s"), ("ć", "c"),
   ("ż", "z"), ("ź", "x"), ("ł", "l"), ("ó", "o"), ("ń", "n")].map
    (fun p => (p.1.toList, p.2.toList))

/-- `_IGNORE_SET`: tokens excluded from corruption. -/
def polishIgnoreSet : List Str :=
  ["zero", "jeden", "jedna", "jedno", "dwa", "dwie", "trzy", "cztery", "pięć",
   "sześć", "siedem", "osiem", "dziewięć", "dziesięć", "jedenaście",
   "dwanaście", "trzynaście", "czternaście", "piętnaście", "szesnaście",
   "siedemnaście", "osiemnaście", "dziewiętnaście", "dwadzieścia",
   "trzydzieści", "czterdzieści", "pięćdziesiąt", "sześćdziesiąt",
   "siedemdziesiąt", "osiemdziesiąt", "dziewięćdziesiąt", "sto", "dwieście",
   "tysiąc", "milion", "miliard",
   "1", "2", "3", "4", "5", "6", "7", "8", "9", "0"].map String.toList

/-- `_DEFAULT_TYPO_DISTRIBUTION`. -/
def defaultTypoDistribution : List (Str × ℚ) :=
  [("delete".toList, 28/100), ("insert".toList, 15/100),
   ("replace".toList, 28/100), ("transpose".toList, 28/100)]

/-- `_normalize_distribution`: divide each weight by the total mass (the
constructor raises when the total is not positive; the default total
`0.99` is positive). -/
def normalizeDistribution (d : List (Str × ℚ)) : List (Str × ℚ) :=
  let total := (d.map (fun p => p.2)).sum
  d.map (fun p => (p.1, p.2 / total))

/-- The `_TypoEngine()` instance (defaults) after `__post_init__`. -/
def polishEngine : Engine where
  keyboard := polishKeyboard
  altgrKeyboard := some polishAltgrKeyboard
  diacriticalMap := polishDiacriticalMap
  leftRight := polishLeftRight
  ignoreSet := polishIgnoreSet
  typoDistribution := normalizeDistribution defaultTypoDistribution
  horizontalVsVertical := (9, 1)
  useExcludingSet := true

/-- The word-eligibility test of the word-sampling loop: ignore words of
length ≤ 1 and (when the excluding set is enabled) words containing an
ignore-set token as a case-insensitive substring. -/
def wordIgnored (eng : Engine) (word : Str) : Bool :=
  if word.length ≤ 1 then true
  else if eng.useExcludingSet && eng.ignoreSet.any (fun t => pyInStr t (pyLower word)) then true
  else false

/-- One slot of the session word list: the current string plus the
history of accepted edits (`words[i] = [word, (func, idxs), ...]`). -/
structure WordSlot where
  word : Str
  hist : List (OpKind × List ℤ)
deriving DecidableEq, Repr

instance : Inhabited WordSlot := ⟨⟨[], []⟩⟩

/-- The mutable session state of `insert_typos`'s main loop. -/
structure LoopState where
  words : List WordSlot
  weights : List ℚ
  typoed : ℕ
  tries : ℕ
  k : ℕ
deriving Repr

/-- The word-sampling inner loop (`while ignore and tries <= max_tries`).
Returns the updated state and the selected `(word_idx, word)` when a
non-ignored word was found, `none` in the second component when the loop
exhausted the budget.  Fuel exhaustion (unreachable at the call sites,
which pass `max_tries + 2`) and raised exceptions both give `none`. -/
def selectWord (eng : Engine) (g : ℕ → ℚ) (maxTries : ℕ) :
    ℕ → LoopState → Option (LoopState × Option (ℕ × Str))
  | 0, st => if st.tries ≤ maxTries then none else some (st, none)
  | fuel + 1, st =>
    if st.tries ≤ maxTries then
      let st1 : LoopState := { st with tries := st.tries + 1 }
      match randomChoicesIdx st1.weights (g st1.k) with
      | none => none
      | some wi =>
        let st2 : LoopState := { st1 with k := st1.k + 1 }
        let word := (st2.words.getD wi default).word
        if wordIgnored eng word then selectWord eng g maxTries fuel st2
        else some (st2, some (wi, word))
    else some (st, none)

/-- The operation-application inner loop
(`while ((new_word == word) or not is_valid) and tries <= max_tries`).
Carried arguments mirror the Python locals `word`, `new_word`,
`is_valid` and the last sampled `typo_function`/`idxs`.  The second
result component is the accepted `(new_word, op, idxs)` when the loop
exited with a validated change.  The transpose special case guards on
`typo_function is self._transpose` (`methodIs`, always false), so the
trailing space is never actually appended. -/
def applyTypo (eng : Engine) (g : ℕ → ℚ) (maxTries wordsLen wordIdx : ℕ) :
    ℕ → LoopState → Str → Str → Bool → OpKind → List ℤ →
    Option (LoopState × Option (Str × OpKind × List ℤ))
  | 0, st, word, newWord, isValid, curOp, curIdxs =>
    if (newWord = word ∨ isValid = false) ∧ st.tries ≤ maxTries then none
    else some (st, if newWord ≠ word ∧ isValid = true then some (newWord, curOp, curIdxs) else none)
  | fuel + 1, st, word, newWord, isValid, curOp, curIdxs =>
    if (newWord = word ∨ isValid = false) ∧ st.tries ≤ maxTries then
      let st1 : LoopState := { st with tries := st.tries + 1 }
      match randomChoicesIdx (eng.typoDistribution.map (fun p => p.2)) (g st1.k) with
      | none => none
      | some ni =>
        let st2 : LoopState := { st1 with k := st1.k + 1 }
        let typoName := (eng.typoDistribution.map (fun p => p.1)).getD ni []
        match opKindOfName typoName with
        | none => none
        | some op =>
          let word1 := if methodIs op OpKind.transpose
              && decide (wordIdx ≠ wordsLen - 1) && !word.contains ' '
            then word ++ [' '] else word
          match applyOp eng op g st2.k word1 with
          | none => none
          | some (res, k') =>
            let st3 : LoopState := { st2 with k := k' }
            let newWord1 := res.1
            let idxs := res.2.getD []
            let isValid1 := if newWord1 ≠ word1 then
                isValidOperation ((st3.words.getD wordIdx default).hist) idxs op
              else isValid
            applyTypo eng g maxTries wordsLen wordIdx fuel st3 word1 newWord1 isValid1 op idxs
    else some (st, if newWord ≠ word ∧ isValid = true then some (newWord, curOp, curIdxs) else none)

/-- The outer loop of `insert_typos`
(`while typoed < typos_target and tries <= max_tries`), returning the
final word-slot list. -/
def mainLoop (eng : Engine) (g : ℕ → ℚ) (target : ℚ) (maxTries : ℕ) :
    ℕ → LoopState → Option (List WordSlot)
  | 0, st =>
    if (st.typoed : ℚ) < target ∧ st.tries ≤ maxTries then none else some st.words
  | fuel + 1, st =>
    if (st.typoed : ℚ) < target ∧ st.tries ≤ maxTries then
      match selectWord eng g maxTries (maxTries + 2) st with
      | none => none
      | some (st1, found) =>
        if maxTries < st1.tries then some st1.words
        else
          match found with
          | none => some st1.words
          | some (wordIdx, word) =>
            match applyTypo eng g maxTries st1.words.length wordIdx (maxTries + 2) st1
                word [] false OpKind.delete [] with
            | none => none
            | some (st2, res) =>
              if maxTries < st2.tries then some st2.words
              else
                match res with
                | none => some st2.words
                | some (newWord, op, idxs) =>
                  let slot := st2.words.getD wordIdx default
                  let st3 : LoopState := { st2 with
                    weights := st2.weights.set wordIdx (st2.weights.getD wordIdx 0 * (1/2)),
                    words := st2.words.set wordIdx ⟨newWord, slot.hist ++ [(op, idxs)]⟩,
                    typoed := st2.typoed + 1 }
                  mainLoop eng g target maxTries fuel st3
    else some st.words

/-- The final rejoin of `insert_typos`: words containing a space are
concatenated without an added separator, all others get a trailing
space; the result is stripped. -/
def joinTyped (ws : List Str) : Str :=
  pyStrip (ws.foldl (fun acc w => if w.contains ' ' then acc ++ w else acc ++ w ++ [' ']) [])

/-- The per-word selection weights `sqrt(len(word))` before
normalization. -/
def rawWordWeights (text : Str) : List ℚ :=
  (pySplitSpace text).map (fun w => msqrt ((w.length : ℚ)))

/-- The normalized, 2-decimal-rounded word selection weights. -/
def wordSelectionWeights (text : Str) : List ℚ :=
  (rawWordWeights text).map (fun p => roundIt (p / (rawWordWeights text).sum) 2)

/-- `insert_typos(text, typo_rate, max_tries)` with the random source
`g` starting at position `k`.  `none` models a raised exception. -/
def insertTypos (eng : Engine) (text : Str) (typoRate : ℚ) (maxTries : ℕ)
    (g : ℕ → ℚ) (k : ℕ) : Option Str :=
  let words := (pySplitSpace text).map (fun w => WordSlot.mk w [])
  let typosTarget := roundIt (typoRate * (words.length : ℚ)) 0
  if typosTarget < 1/2 then some text
  else
    let weights := words.map (fun w => msqrt ((w.word.length : ℚ)))
    if weights.sum = 0 then some text
    else
      let weights2 := weights.map (fun p => roundIt (p / weights.sum) 2)
      match mainLoop eng g typosTarget maxTries (maxTries + 2)
          ⟨words, weights2, 0, 0, k⟩ with
      | none => none
      | some finalWords => some (joinTyped (finalWords.map (fun s => s.word)))

/-- `TypoErrorGenerator.apply` for a generator built with the given
`typo_rate` and a seed whose `random` stream denotes `g`: the
constructor validates `0.0 <= typo_rate <= 1.0` (else raises) and
`apply` runs `insert_typos` with `max_tries = 1000`. -/
def typoErrorGeneratorApply (typoRate : ℚ) (g : ℕ → ℚ) (text : Str) : Option Str :=
  if 0 ≤ typoRate ∧ typoRate ≤ 1 then insertTypos polishEngine text typoRate 1000 g 0
  else none

/-- The module-level registry state (`LANGUAGES`, `KEYBOARDS` /
`_GLOBAL_KEYBOARDS` (aliases of one dict), `LEFT_RIGHTS`, `IGNORES`),
modelled as finite maps. -/
structure Registry where
  languages : Str → Option Str
  keyboards : Str → Option (List (List Str))
  leftRights : Str → Option (List Str × List Str)
  ignores : Str → Option (List Str)

/-- `d[key] = v` on a map. -/
def mapSet {α : Type} (m : Str → Option α) (key : Str) (v : α) : Str → Option α :=
  fun key' => if key' = key then some v else m key'

/-- `d.setdefault(key, v)` on a map. -/
def mapSetdefault {α : Type} (m : Str → Option α) (key : Str) (v : α) : Str → Option α :=
  if (m key).isSome then m else mapSet m key v

/-- `register_keyboard_layout(lang_code, language, keyboard_rows,
left_keys, right_keys, ignoring_set)`; the `.error` case is the
duplicate-language `ValueError`. -/
def registerKeyboardLayout (st : Registry) (langCode language : Str)
    (keyboardRows : List (List Str)) (leftKeys rightKeys : Option (List Str))
    (ignoringSet : Option (List Str)) : Except String Registry :=
  let dup := match st.languages language with
    | some code => decide (code ≠ langCode)
    | none => false
  if dup then Except.error "language name is already registered with a different lang_code"
  else
    let languages := mapSet st.languages language langCode
    let keyboards := mapSet st.keyboards langCode keyboardRows
    let leftRights := match leftKeys, rightKeys with
      | some l, some r => mapSet st.leftRights langCode (l, r)
      | _, _ => mapSetdefault st.leftRights langCode ([], [])
    let ignores := match ignoringSet with
      | some ig => mapSet st.ignores langCode ig
      | none => mapSetdefault st.ignores langCode []
    Except.ok ⟨languages, keyboards, leftRights, ignores⟩

/-!  Specification-side definitions (from the spec's words, for the
refinement theorems; these are deliberately written from the claim text,
not from the code). -/

/-- Spec-side: the Conflict Validator's rejection table of §4.5, read
off the claim text.  `priorIndex` of a one-index entry is its first
index; a transpose proposal's second index is `idxs[1]`. -/
def specTriggers : (OpKind × List ℤ) → List ℤ → OpKind → Prop
  | (OpKind.replace, p), idxs, op =>
    (op = OpKind.insert ∧ p.getD 0 0 + 1 = idxs.getD 0 0)
      ∨ p = idxs ∨ ∃ i ∈ p, i ∈ idxs
  | (OpKind.delete, p), idxs, op =>
    op = OpKind.transpose ∧ p.getD 0 0 = idxs.getD 1 0
  | (OpKind.insert, p), idxs, op =>
    ((op = OpKind.replace ∨ op = OpKind.delete)
        ∧ (p = idxs ∨ p.getD 0 0 - 1 = idxs.getD 0 0))
      ∨ (op = OpKind.insert ∧ (p = idxs ∨ p.getD 0 0 + 1 = idxs.getD 0 0))
      ∨ (op = OpKind.transpose ∧ (p = idxs ∨ ∃ i ∈ p, i ∈ idxs))
  | (OpKind.transpose, p), idxs, op =>
    (op = OpKind.transpose ∨ op = OpKind.insert ∨ op = OpKind.delete)
      ∧ (p = idxs ∨ ∃ i ∈ p, i ∈ idxs)

/-- Spec-side: the ramp formula `0.1 + (0.2 - 0.1) * (i / (n - 2))` of
the Position Weighter. -/
def rampWeight (n : ℕ) (i : ℕ) : ℚ :=
  1/10 + (2/10 - 1/10) * ((i : ℚ) / ((n : ℚ) - 2))

/-- Spec-side: the raw weight list (position 0 gets weight 0; the ramp
covers the remaining positions including the final one). -/
def rampList (n : ℕ) : List ℚ :=
  (0 : ℚ) :: (List.range (n - 1)).map (rampWeight n)

/-! ## Theorems -/

lemma entryRejects_false (prevOp : OpKind) (prevIdx idxs : List ℤ) (op : OpKind) :
    entryRejects prevOp prevIdx idxs op = false := rfl

/-- C1 (code-bug evidence): in the source every
`prev_operation is self._X` guard of `_is_valid_operation` compares a
stored bound method with a freshly created one — always false in Python
— so the Conflict Validator accepts every proposal; in particular it
accepts a replace at index 1 after a prior replace at index 1, a
proposal the claimed §4.5 rule table (`specTriggers`, written from the
claim text) rejects. -/
theorem conflict_validator_always_accepts :
    (∀ (hist : List (OpKind × List ℤ)) (idxs : List ℤ) (op : OpKind),
      isValidOperation hist idxs op = true) ∧
    isValidOperation [(OpKind.replace, [1])] [1] OpKind.replace = true ∧
    specTriggers (OpKind.replace, [1]) [1] OpKind.replace := by
  have hall : ∀ (hist : List (OpKind × List ℤ)) (idxs : List ℤ) (op : OpKind),
      isValidOperation hist idxs op = true := by
    intro hist idxs op
    unfold isValidOperation
    split
    · rfl
    · simp [List.all_eq_true, entryRejects_false]
  exact ⟨hall, hall _ _ _, Or.inr (Or.inl rfl)⟩

lemma rat_floor_eq (q : ℚ) : q.floor = ⌊q⌋ :=
  (Rat.floor_def' q).trans Rat.floor_def.symm

lemma abs_roundIt2_sub (x : ℚ) (hx : 0 ≤ x) : |roundIt x 2 - x| ≤ 1/200 := by
  have h0 : (0 : ℚ) ≤ x * 10 ^ 2 + 1/2 := by positivity
  simp only [roundIt, itrunc]
  rw [if_pos h0, rat_floor_eq]
  have h1 : ((⌊x * 10 ^ 2 + 1/2⌋ : ℚ)) ≤ x * 10 ^ 2 + 1/2 := Int.floor_le _
  have h2 : x * 10 ^ 2 + 1/2 - 1 < (⌊x * 10 ^ 2 + 1/2⌋ : ℚ) := Int.sub_one_lt_floor _
  rw [abs_le]
  constructor <;> [nlinarith; nlinarith]

lemma list_sum_map_sub_le {α : Type} (l : List α) (f h : α → ℚ) (c : ℚ)
    (hb : ∀ a ∈ l, |f a - h a| ≤ c) :
    |(l.map f).sum - (l.map h).sum| ≤ l.length * c := by
  induction l with
  | nil => simp
  | cons a t ih =>
    simp only [List.map_cons, List.sum_cons, List.length_cons]
    have h1 := hb a (by simp)
    have h2 := ih (fun b hbm => hb b (List.mem_cons_of_mem a hbm))
    have h3 : f a + (t.map f).sum - (h a + (t.map h).sum)
        = (f a - h a) + ((t.map f).sum - (t.map h).sum) := by ring
    rw [h3]
    calc |(f a - h a) + ((t.map f).sum - (t.map h).sum)|
        ≤ |f a - h a| + |(t.map f).sum - (t.map h).sum| := abs_add _ _
      _ ≤ c + t.length * c := add_le_add h1 h2
      _ = (t.length + 1) * c := by ring
      _ = ((t.length + 1 : ℕ) : ℚ) * c := by push_cast; ring

lemma list_sum_map_div (l : List ℚ) (s : ℚ) :
    (l.map (fun p => p / s)).sum = l.sum / s := by
  induction l with
  | nil => simp
  | cons a t ih => simp [ih, add_div]

lemma rampWeight_nonneg (n i : ℕ) (hn : 3 ≤ n) : 0 ≤ rampWeight n i := by
  unfold rampWeight
  have h2 : (0 : ℚ) < (n : ℚ) - 2 := by
    have : (3 : ℚ) ≤ (n : ℚ) := by exact_mod_cast hn
    linarith
  have : (0 : ℚ) ≤ (i : ℚ) / ((n : ℚ) - 2) := by positivity
  linarith

lemma rampList_mem_nonneg (n : ℕ) (hn : 3 ≤ n) : ∀ p ∈ rampList n, 0 ≤ p := by
  intro p hp
  unfold rampList at hp
  rcases List.mem_cons.mp hp with h | h
  · simp [h]
  · obtain ⟨i, _, rfl⟩ := List.mem_map.mp h
    exact rampWeight_nonneg n i hn

lemma rampList_sum_pos (n : ℕ) (hn : 3 ≤ n) : 0 < (rampList n).sum := by
  have hmem : rampWeight n 0 ∈ rampList n := by
    unfold rampList
    refine List.mem_cons_of_mem _ (List.mem_map.mpr ⟨0, ?_, rfl⟩)
    exact List.mem_range.mpr (by omega)
  have hval : rampWeight n 0 = 1/10 := by
    unfold rampWeight
    norm_num
  have hle := List.single_le_sum (rampList_mem_nonneg n hn) _ hmem
  rw [hval] at hle
  linarith

lemma getWeightsOfIdx_eq_ramp (n : ℕ) (hn : 3 ≤ n) :
    getWeightsOfIdx n = (rampList n).map (fun p => roundIt (p / (rampList n).sum) 2) := by
  unfold getWeightsOfIdx
  rw [if_neg (by omega), if_neg (by omega)]
  rfl

lemma rampList_length (n : ℕ) (hn : 3 ≤ n) : (rampList n).length = n := by
  unfold rampList
  simp only [List.length_cons, List.length_map, List.length_range]
  omega

/-- C2: the Position Weighter returns `[0]` for length 1 (total, no
error) and `[0, 1]` for length 2; for `n ≥ 3` it produces `n` weights,
position 0 gets 0, positions `1 .. n-1` carry the ramp formula
`0.1 + (0.2 - 0.1) * (i / (n - 2))` (with `i = position - 1`) divided by
the raw sum and rounded to 2 decimals, and the output sums to 1 up to
an accumulated rounding drift of at most `n / 200`. -/
theorem position_weighter_spec :
    getWeightsOfIdx 1 = [0] ∧ getWeightsOfIdx 2 = [0, 1] ∧
    ∀ n, 3 ≤ n →
      (getWeightsOfIdx n).length = n ∧
      (getWeightsOfIdx n).getD 0 0 = 0 ∧
      (∀ j, 1 ≤ j → j ≤ n - 1 →
        (getWeightsOfIdx n).getD j 0
          = roundIt (rampWeight n (j - 1) / (rampList n).sum) 2) ∧
      |(getWeightsOfIdx n).sum - 1| ≤ (n : ℚ) / 200 := by
  refine ⟨by decide, by decide, ?_⟩
  intro n hn
  have hS := rampList_sum_pos n hn
  have hlen := rampList_length n hn
  rw [getWeightsOfIdx_eq_ramp n hn]
  refine ⟨by simp [hlen], ?_, ?_, ?_⟩
  · unfold rampList
    simp only [List.map_cons, List.getD_cons_zero, zero_div]
    with_unfolding_all rfl
  · intro j hj1 hj2
    obtain ⟨m, rfl⟩ : ∃ m, j = m + 1 := ⟨j - 1, by omega⟩
    have hm : m < n - 1 := by omega
    have hsplit : rampList n = (0 : ℚ) :: (List.range (n - 1)).map (rampWeight n) := rfl
    rw [show (m + 1) - 1 = m from rfl]
    conv_lhs => rw [hsplit]
    rw [List.map_cons, List.getD_cons_succ, ← hsplit, List.map_map]
    have hlt : m < ((List.range (n - 1)).map
        ((fun p => roundIt (p / (rampList n).sum) 2) ∘ rampWeight n)).length := by
      simp [hm]
    rw [List.getD_eq_getElem _ _ hlt]
    simp
  · have h1 : ((rampList n).map (fun p => p / (rampList n).sum)).sum = 1 := by
      rw [list_sum_map_div]
      exact div_self (ne_of_gt hS)
    have h2 := list_sum_map_sub_le (rampList n)
      (fun p => roundIt (p / (rampList n).sum) 2)
      (fun p => p / (rampList n).sum) (1/200)
      (fun a ha => abs_roundIt2_sub _ (div_nonneg (rampList_mem_nonneg n hn a ha) (le_of_lt hS)))
    rw [h1, hlen] at h2
    calc |((rampList n).map (fun p => roundIt (p / (rampList n).sum) 2)).sum - 1|
        ≤ (n : ℚ) * (1/200) := h2
      _ = (n : ℚ) / 200 := by ring

/-- Witness for C2 at `n = 5`, `j = 2`. -/
theorem position_weighter_spec_witness :
    (getWeightsOfIdx 5).getD 2 0 = roundIt (rampWeight 5 1 / (rampList 5).sum) 2 ∧
    |(getWeightsOfIdx 5).sum - 1| ≤ (5 : ℚ) / 200 := by
  have h := position_weighter_spec.2.2 5 (by norm_num)
  exact ⟨h.2.2.1 2 (by norm_num) (by norm_num), h.2.2.2⟩

/-- C3: the Neighbor Resolver searches the alternate (AltGr) grid when
the character is a key of the base-character (diacritical) table, and the
primary grid otherwise.  (The alternate grid is configured — `some alt` —
as `_TypoEngine.__post_init__` always sets it.) -/
theorem neighbour_resolver_grid_choice (eng : Engine) (ch : Str) (alt : List (List Str))
    (halt : eng.altgrKeyboard = some alt) :
    ((dictGet eng.diacriticalMap ch).isSome = true →
      getNeighboursWithOrientation eng ch
        = searchGrid alt eng.horizontalVsVertical.1 eng.horizontalVsVertical.2 ch) ∧
    (dictGet eng.diacriticalMap ch = none →
      getNeighboursWithOrientation eng ch
        = searchGrid eng.keyboard eng.horizontalVsVertical.1 eng.horizontalVsVertical.2 ch) := by
  unfold getNeighboursWithOrientation
  rw [halt]
  constructor
  · intro h
    obtain ⟨b, hb⟩ := Option.isSome_iff_exists.mp h
    rw [hb]
  · intro h
    rw [h]

/-- Witness for C3 on the Polish engine: `"ą"` is in the base-character
table and resolves against the alternate grid, `"a"` is not and resolves
against the primary grid. -/
theorem neighbour_resolver_grid_choice_witness :
    ((dictGet polishEngine.diacriticalMap "ą".toList).isSome = true ∧
      getNeighboursWithOrientation polishEngine "ą".toList
        = searchGrid polishAltgrKeyboard 9 1 "ą".toList) ∧
    (dictGet polishEngine.diacriticalMap "a".toList = none ∧
      getNeighboursWithOrientation polishEngine "a".toList
        = searchGrid polishKeyboard 9 1 "a".toList) :=
  ⟨⟨by decide,
    (neighbour_resolver_grid_choice polishEngine "ą".toList polishAltgrKeyboard rfl).1 (by decide)⟩,
   ⟨by decide,
    (neighbour_resolver_grid_choice polishEngine "a".toList polishAltgrKeyboard rfl).2 (by decide)⟩⟩

lemma transposablePairs_nil_of_short (eng : Engine) (word : Str) (h : word.length ≤ 1) :
    transposablePairs eng word = [] := by
  have hd : word.drop 1 = [] := List.drop_eq_nil_of_le h
  simp [transposablePairs, hd, pyList]

/-- C4: `_transpose` never moves the word's first character (whenever it
returns, the one-character prefix is unchanged), and when no adjacent
pair of the remainder is cross-hand or space-terminated (the eligible
pair list is empty) it returns the word unchanged with the null index
marker. -/
theorem transpose_first_char_and_no_pair (eng : Engine) (g : ℕ → ℚ) (k : ℕ) (word : Str) :
    (∀ w' io k', pyTranspose eng g k word = some ((w', io), k') → w'.take 1 = word.take 1) ∧
    (transposablePairs eng word = [] → pyTranspose eng g k word = some ((word, none), k)) := by
  constructor
  · intro w' io k' h
    simp only [pyTranspose] at h
    by_cases h1 : word.length ≤ 1
    · rw [if_pos h1] at h
      simp only [Option.some.injEq, Prod.mk.injEq] at h
      rw [← h.1.1]
    · rw [if_neg h1] at h
      by_cases h2 : transposablePairs eng word = []
      · rw [if_pos h2] at h
        simp only [Option.some.injEq, Prod.mk.injEq] at h
        rw [← h.1.1]
      · rw [if_neg h2] at h
        by_cases h3 : (getWeightsOfIdx (transposablePairs eng word).length).sum = 0
        · rw [if_pos h3] at h
          simp only [Option.some.injEq, Prod.mk.injEq] at h
          rw [← h.1.1]
        · rw [if_neg h3] at h
          rcases hr : randomChoicesIdx (getWeightsOfIdx (transposablePairs eng word).length) (g k)
            with _ | j
          · simp only [hr] at h
            exact Option.noConfusion h
          · simp only [hr, Option.some.injEq, Prod.mk.injEq] at h
            rw [← h.1.1]
            have hlen : (word.take 1).length = 1 := by
              rw [List.length_take]
              omega
            rw [List.take_append_of_le_length (by omega : 1 ≤ (word.take 1).length)]
            rw [List.take_take]
            simp
  · intro h2
    simp only [pyTranspose]
    by_cases h1 : word.length ≤ 1
    · rw [if_pos h1]
    · rw [if_neg h1, if_pos h2]

/-- Witness for C4: a transposing run on `"xana"` keeps the first
character, and `"ab"` (no eligible pair) is returned unchanged with the
null marker. -/
theorem transpose_first_char_and_no_pair_witness :
    ("xaan".toList.take 1 = "xana".toList.take 1) ∧
    pyTranspose polishEngine (fun _ => 0) 0 "ab".toList = some (("ab".toList, none), 0) :=
  ⟨(transpose_first_char_and_no_pair polishEngine (fun _ => 0) 0 "xana".toList).1
      "xaan".toList (some [1, 2]) 1 (by with_unfolding_all rfl),
   (transpose_first_char_and_no_pair polishEngine (fun _ => 0) 0 "ab".toList).2 (by decide)⟩

/-- C10: the transpose candidates are weighted by the Position Weighter
applied to the pair list's length, so with exactly one eligible pair the
weights are `[0]` (zero total) and the word is returned unchanged with
the null marker; with exactly two eligible pairs the first pair gets
weight 0 and the swapped pair is always the second one. -/
theorem transpose_pair_weighting (eng : Engine) (g : ℕ → ℚ) (k : ℕ) (word : Str) :
    ((transposablePairs eng word).length = 1 →
      getWeightsOfIdx (transposablePairs eng word).length = [0] ∧
      pyTranspose eng g k word = some ((word, none), k)) ∧
    ((transposablePairs eng word).length = 2 → 0 ≤ g k →
      ∃ w' k', pyTranspose eng g k word
        = some ((w', some [(((transposablePairs eng word).getD 1 (0, 0)).1 : ℤ),
                           (((transposablePairs eng word).getD 1 (0, 0)).2 : ℤ)]), k')) := by
  constructor
  · intro h1
    have hword : ¬ word.length ≤ 1 := by
      intro hle
      rw [transposablePairs_nil_of_short eng word hle] at h1
      simp at h1
    have hne : transposablePairs eng word ≠ [] := by
      intro h
      rw [h] at h1
      simp at h1
    refine ⟨by rw [h1]; with_unfolding_all rfl, ?_⟩
    simp only [pyTranspose]
    rw [if_neg hword, if_neg hne, h1,
      if_pos (show (getWeightsOfIdx 1).sum = 0 by with_unfolding_all rfl)]
  · intro h2 hr
    have hword : ¬ word.length ≤ 1 := by
      intro hle
      rw [transposablePairs_nil_of_short eng word hle] at h2
      simp at h2
    have hne : transposablePairs eng word ≠ [] := by
      intro h
      rw [h] at h2
      simp at h2
    have hw2 : getWeightsOfIdx 2 = [0, 1] := by with_unfolding_all rfl
    have hsum : (([0, 1] : List ℚ)).sum = 1 := by with_unfolding_all rfl
    have hchoice : randomChoicesIdx [0, 1] (g k) = some 1 := by
      unfold randomChoicesIdx
      simp only [hsum]
      rw [if_neg (by norm_num)]
      have hcum : cumWeights [0, 1] = [0, 1] := by with_unfolding_all rfl
      rw [hcum, mul_one]
      unfold bisectIdx
      rw [if_neg (not_lt.mpr hr)]
      with_unfolding_all rfl
    simp only [pyTranspose]
    rw [if_neg hword, if_neg hne, h2, hw2,
      if_neg (show ¬ (([0, 1] : List ℚ).sum = 0) by rw [hsum]; norm_num)]
    simp only [hchoice]
    exact ⟨_, _, rfl⟩

/-- Witness for C10: under the Polish hand partition, `"xan"` has exactly
one eligible pair (returned unchanged with the null marker) and `"xana"`
exactly two (the second pair `(1, 2)` is swapped). -/
theorem transpose_pair_weighting_witness :
    (getWeightsOfIdx (transposablePairs polishEngine "xan".toList).length = [0] ∧
      pyTranspose polishEngine (fun _ => 0) 0 "xan".toList = some (("xan".toList, none), 0)) ∧
    (∃ w' k', pyTranspose polishEngine (fun _ => 0) 0 "xana".toList
      = some ((w', some [(((transposablePairs polishEngine "xana".toList).getD 1 (0, 0)).1 : ℤ),
                         (((transposablePairs polishEngine "xana".toList).getD 1 (0, 0)).2 : ℤ)]), k')) :=
  ⟨(transpose_pair_weighting polishEngine (fun _ => 0) 0 "xan".toList).1 (by decide),
   (transpose_pair_weighting polishEngine (fun _ => 0) 0 "xana".toList).2 (by decide) (by norm_num)⟩

lemma roundIt_zero_lt_half (x : ℚ) (hx0 : 0 ≤ x) (hx : x < 1/2) : roundIt x 0 < 1/2 := by
  simp only [roundIt, itrunc, pow_zero, mul_one]
  rw [if_pos (by linarith : (0 : ℚ) ≤ x + 1/2), rat_floor_eq]
  have hfl : ⌊x + 1/2⌋ = 0 := by
    rw [Int.floor_eq_zero_iff]
    constructor
    · linarith
    · simpa using by linarith
  rw [hfl]
  norm_num

/-- C6: whenever `typoRate * wordCount < 0.5` (with a nonnegative rate —
in particular for `typoRate = 0`), the rounded target falls below `0.5`
and `insert_typos` returns the input text exactly. -/
theorem zero_rate_identity (eng : Engine) (text : Str) (typoRate : ℚ) (maxTries : ℕ)
    (g : ℕ → ℚ) (k : ℕ) (h0 : 0 ≤ typoRate)
    (h1 : typoRate * ((pySplitSpace text).length : ℚ) < 1/2) :
    insertTypos eng text typoRate maxTries g k = some text := by
  simp only [insertTypos, List.length_map]
  rw [if_pos (roundIt_zero_lt_half _ (mul_nonneg h0 (Nat.cast_nonneg _)) h1)]

/-- Witness for C6 at `typoRate = 0`. -/
theorem zero_rate_identity_witness :
    insertTypos polishEngine "ab c".toList 0 5 (fun _ => 0) 0 = some "ab c".toList :=
  zero_rate_identity polishEngine "ab c".toList 0 5 (fun _ => 0) 0 le_rfl (by norm_num)

lemma words_msqrt_eq (text : Str) :
    ((pySplitSpace text).map (fun w => WordSlot.mk w [])).map
      (fun w => msqrt ((w.word.length : ℚ))) = rawWordWeights text := by
  rw [List.map_map]
  rfl

/-- C5 (amended): the all-zero check applies to the raw `sqrt(length)`
weights before normalization — when their sum is zero (i.e. every word
is empty) the input is returned unchanged.  (The original claim's
further assertion that sampling can never hit a zero total weight is
refuted by `insert_typos_zero_weight_error`.) -/
theorem zero_raw_weights_identity (eng : Engine) (text : Str) (typoRate : ℚ)
    (maxTries : ℕ) (g : ℕ → ℚ) (k : ℕ)
    (h : (rawWordWeights text).sum = 0) :
    insertTypos eng text typoRate maxTries g k = some text := by
  simp only [insertTypos]
  split
  · rfl
  · rw [words_msqrt_eq, if_pos h]

/-- Witness for the amended C5: the empty text splits into one empty
word of weight zero and is returned unchanged. -/
theorem zero_raw_weights_identity_witness :
    (rawWordWeights []).sum = 0 ∧
    insertTypos polishEngine [] 1 5 (fun _ => 0) 0 = some [] :=
  ⟨by with_unfolding_all rfl,
   zero_raw_weights_identity polishEngine [] 1 5 (fun _ => 0) 0 (by with_unfolding_all rfl)⟩

/-- `n + 1` copies of the single-letter word `"a"` separated by single
spaces. -/
def repSingleWords : ℕ → Str
  | 0 => ['a']
  | n + 1 => 'a' :: ' ' :: repSingleWords n

/-- A text of 201 single-letter words: every normalized selection weight
`sqrt(1)/201 ≈ 0.005` rounds to `0.00`. -/
def zeroWeightText : Str := repSingleWords 200

lemma pySplitSpace_repSingleWords (n : ℕ) :
    pySplitSpace (repSingleWords n) = List.replicate (n + 1) ['a'] := by
  induction n with
  | zero => rfl
  | succ m ih =>
    show pySplitSpace ('a' :: ' ' :: repSingleWords m) = _
    simp only [pySplitSpace, if_neg (by decide : ¬ ('a' = ' ')), if_pos rfl]
    rw [ih]
    rfl

/-- Restatement of `insert_typos` through the named weight
definitions. -/
lemma insertTypos_eq (eng : Engine) (text : Str) (typoRate : ℚ) (maxTries : ℕ)
    (g : ℕ → ℚ) (k : ℕ) :
    insertTypos eng text typoRate maxTries g k =
      if roundIt (typoRate * ((pySplitSpace text).length : ℚ)) 0 < 1/2 then some text
      else if (rawWordWeights text).sum = 0 then some text
      else
        match mainLoop eng g (roundIt (typoRate * ((pySplitSpace text).length : ℚ)) 0)
            maxTries (maxTries + 2)
            ⟨(pySplitSpace text).map (fun w => WordSlot.mk w []),
              wordSelectionWeights text, 0, 0, k⟩ with
        | none => none
        | some finalWords => some (joinTyped (finalWords.map (fun s => s.word))) := by
  simp only [insertTypos, List.length_map, words_msqrt_eq]
  rfl

lemma rawWordWeights_zeroWeightText :
    rawWordWeights zeroWeightText = List.replicate 201 1 := by
  unfold rawWordWeights zeroWeightText
  rw [pySplitSpace_repSingleWords, List.map_replicate]
  rw [show msqrt (((['a'] : Str).length : ℚ)) = 1 from by with_unfolding_all rfl]

lemma wordSelectionWeights_zeroWeightText :
    wordSelectionWeights zeroWeightText = List.replicate 201 0 := by
  unfold wordSelectionWeights
  rw [rawWordWeights_zeroWeightText]
  have hsum : (List.replicate 201 (1 : ℚ)).sum = 201 := by
    rw [List.sum_replicate]
    simp
  rw [hsum, List.map_replicate]
  rw [show roundIt ((1 : ℚ) / 201) 2 = 0 from by with_unfolding_all rfl]

/-- Counterexample to C5 as stated: all 201 normalized rounded weights
are zero, yet `insert_typos` does not return the input unchanged — the
word sampling raises a zero-total-weight error (`none`). -/
theorem insert_typos_zero_weight_error :
    (wordSelectionWeights zeroWeightText).sum = 0 ∧
    insertTypos polishEngine zeroWeightText 1 10 (fun _ => 0) 0 = none := by
  have hzero : (wordSelectionWeights zeroWeightText).sum = 0 := by
    rw [wordSelectionWeights_zeroWeightText, List.sum_replicate]
    simp
  refine ⟨hzero, ?_⟩
  rw [insertTypos_eq]
  rw [show pySplitSpace zeroWeightText = List.replicate 201 ['a'] from
    pySplitSpace_repSingleWords 200]
  rw [List.length_replicate,
    show roundIt ((1 : ℚ) * ((201 : ℕ) : ℚ)) 0 = 201 from by with_unfolding_all rfl]
  rw [if_neg (by norm_num)]
  rw [if_neg (by
    rw [rawWordWeights_zeroWeightText, List.sum_replicate]
    simp)]
  have hsel : selectWord polishEngine (fun _ => (0 : ℚ)) 10 (10 + 2)
      ⟨(List.replicate 201 (['a'] : Str)).map (fun w => WordSlot.mk w []),
        wordSelectionWeights zeroWeightText, 0, 0, 0⟩ = none := by
    rw [show (10 + 2 : ℕ) = 11 + 1 from rfl, selectWord]
    rw [if_pos (by norm_num)]
    have hrc : randomChoicesIdx (wordSelectionWeights zeroWeightText) 0 = none := by
      unfold randomChoicesIdx
      rw [if_pos (le_of_eq hzero)]
    simp only [hrc]
  have hml : mainLoop polishEngine (fun _ => (0 : ℚ)) 201 10 (10 + 2)
      ⟨(List.replicate 201 (['a'] : Str)).map (fun w => WordSlot.mk w []),
        wordSelectionWeights zeroWeightText, 0, 0, 0⟩ = none := by
    rw [show (10 + 2 : ℕ) = 11 + 1 from rfl, mainLoop]
    rw [if_pos (by norm_num)]
    simp only [show (11 + 1 : ℕ) = 10 + 2 from rfl, hsel]
  simp only [hml]

lemma selectWord_all_ignored (eng : Engine) (g : ℕ → ℚ) (maxTries : ℕ) :
    ∀ (fuel : ℕ) (st : LoopState),
      maxTries + 2 ≤ st.tries + fuel →
      st.tries ≤ maxTries + 1 →
      (∀ w ∈ st.words, wordIgnored eng w.word = true) →
      0 < st.weights.sum →
      ∃ st', selectWord eng g maxTries fuel st = some (st', none) ∧
        st'.words = st.words ∧ maxTries < st'.tries := by
  intro fuel
  induction fuel with
  | zero =>
    intro st h1 h2 h3 h4
    exact absurd h1 (by omega)
  | succ f ih =>
    intro st h1 h2 h3 h4
    rw [selectWord]
    by_cases ht : st.tries ≤ maxTries
    · rw [if_pos ht]
      have hrc : randomChoicesIdx st.weights (g st.k)
          = some (bisectIdx (cumWeights st.weights) (g st.k * st.weights.sum)) := by
        unfold randomChoicesIdx
        rw [if_neg (not_le.mpr h4)]
      simp only [hrc]
      have hig : wordIgnored eng
          ((st.words.getD (bisectIdx (cumWeights st.weights) (g st.k * st.weights.sum))
            default).word) = true := by
        rcases lt_or_ge (bisectIdx (cumWeights st.weights) (g st.k * st.weights.sum))
            st.words.length with hlt | hge
        · rw [List.getD_eq_getElem _ _ hlt]
          exact h3 _ (List.getElem_mem hlt)
        · rw [List.getD_eq_default _ _ hge]
          rfl
      rw [if_pos hig]
      obtain ⟨st', hrec, hwords, htr⟩ :=
        ih ⟨st.words, st.weights, st.typoed, st.tries + 1, st.k + 1⟩
          (by simp; omega) (by simp; omega) h3 h4
      exact ⟨st', hrec, hwords, htr⟩
    · rw [if_neg ht]
      exact ⟨st, rfl, rfl, by omega⟩

/-- C7 (amended): when every split word is ineligible (length ≤ 1 or
containing an ignore-set token as a case-insensitive substring), the
normalized rounded weights have positive total, and the text equals its
own split-rejoin normal form (no leading/trailing whitespace), the
selection loop exhausts `maxTries` without modifying anything and
`insert_typos` returns the input, for every rate and random stream. -/
theorem ignored_text_unchanged (eng : Engine) (text : Str) (typoRate : ℚ)
    (maxTries : ℕ) (g : ℕ → ℚ) (k : ℕ)
    (hig : ∀ w ∈ pySplitSpace text, wordIgnored eng w = true)
    (hw : 0 < (wordSelectionWeights text).sum)
    (hjoin : joinTyped (pySplitSpace text) = text) :
    insertTypos eng text typoRate maxTries g k = some text := by
  rw [insertTypos_eq]
  by_cases htar : roundIt (typoRate * ((pySplitSpace text).length : ℚ)) 0 < 1/2
  · rw [if_pos htar]
  · rw [if_neg htar]
    by_cases hraw : (rawWordWeights text).sum = 0
    · rw [if_pos hraw]
    · rw [if_neg hraw]
      have h0tar : (0 : ℚ) < roundIt (typoRate * ((pySplitSpace text).length : ℚ)) 0 := by
        have := not_lt.mp htar
        linarith
      obtain ⟨st', hsel, hwords, htr⟩ := selectWord_all_ignored eng g maxTries (maxTries + 2)
        ⟨(pySplitSpace text).map (fun w => WordSlot.mk w []), wordSelectionWeights text, 0, 0, k⟩
        (by simp) (by simp)
        (by
          intro w hwmem
          simp only [List.mem_map] at hwmem
          obtain ⟨x, hx, rfl⟩ := hwmem
          exact hig x hx)
        hw
      rw [show maxTries + 2 = (maxTries + 1) + 1 from rfl, mainLoop]
      rw [if_pos ⟨by simpa using h0tar, by simp⟩]
      simp only [show (maxTries + 1) + 1 = maxTries + 2 from rfl, hsel]
      have hwords' : st'.words = (pySplitSpace text).map (fun w => WordSlot.mk w []) := hwords
      rw [if_pos htr, hwords']
      have hmap : ∀ l : List Str,
          (l.map (fun w => WordSlot.mk w [])).map (fun s => s.word) = l := by
        intro l
        induction l with
        | nil => rfl
        | cons a t iht => simp [iht]
      simp only [hmap, hjoin]

/-- Witness for C7 on a two-word all-ignored text without trailing
whitespace. -/
theorem ignored_text_unchanged_witness :
    insertTypos polishEngine "a1a b2b".toList 1 4 (fun _ => 0) 0 = some "a1a b2b".toList :=
  ignored_text_unchanged polishEngine "a1a b2b".toList 1 4 (fun _ => 0) 0
    (by decide)
    (by
      rw [show (wordSelectionWeights "a1a b2b".toList).sum = 1 from by with_unfolding_all rfl]
      norm_num)
    (by with_unfolding_all rfl)

/-- Counterexample to C7 as stated: `"a1a "` (trailing space) has every
word ignored, yet the output is the stripped `"a1a"`, not the input. -/
theorem ignored_text_trailing_space_changed :
    ((pySplitSpace "a1a ".toList).all (fun w => wordIgnored polishEngine w) = true) ∧
    insertTypos polishEngine "a1a ".toList 1 3 (fun _ => 0) 0 = some "a1a".toList ∧
    ("a1a".toList ≠ "a1a ".toList) := by
  refine ⟨by decide, ?_, by decide⟩
  with_unfolding_all rfl

/-- C8: `insert_typos` (and the seeded `TypoErrorGenerator.apply`
wrapper) is a deterministic function of the random stream and the
parameters: two invocations with identical parameters and the same
seed-denoted stream produce identical outputs. -/
theorem insert_typos_deterministic (eng : Engine) (text : Str) (typoRate : ℚ)
    (maxTries : ℕ) (k : ℕ) (g₁ g₂ : ℕ → ℚ) (h : ∀ n, g₁ n = g₂ n) :
    insertTypos eng text typoRate maxTries g₁ k = insertTypos eng text typoRate maxTries g₂ k ∧
    typoErrorGeneratorApply typoRate g₁ text = typoErrorGeneratorApply typoRate g₂ text := by
  have hg : g₁ = g₂ := funext h
  rw [hg]
  exact ⟨rfl, rfl⟩

/-- Witness for C8 on a concrete text and stream. -/
theorem insert_typos_deterministic_witness :
    insertTypos polishEngine "kot pies".toList 1 20 (fun _ => 1/2) 0
      = insertTypos polishEngine "kot pies".toList 1 20 (fun _ => 1/2) 0 ∧
    typoErrorGeneratorApply 1 (fun _ => 1/2) "kot pies".toList
      = typoErrorGeneratorApply 1 (fun _ => 1/2) "kot pies".toList :=
  insert_typos_deterministic polishEngine "kot pies".toList 1 20 0
    (fun _ => 1/2) (fun _ => 1/2) (fun _ => rfl)

/-- C9: layout registration fails with the duplicate-language error iff
the language name is already registered with a different code; otherwise
it succeeds, mapping the name to the code, overwriting the layout, and
inserting or overwriting the hand partition and ignore set (overwriting
exactly when they are supplied). -/
theorem register_layout_spec (st : Registry) (langCode language : Str)
    (rows : List (List Str)) (leftKeys rightKeys : Option (List Str))
    (ignoring : Option (List Str)) :
    ((∃ e, registerKeyboardLayout st langCode language rows leftKeys rightKeys ignoring
        = Except.error e) ↔ ∃ c, st.languages language = some c ∧ c ≠ langCode) ∧
    (∀ st', registerKeyboardLayout st langCode language rows leftKeys rightKeys ignoring
        = Except.ok st' →
      st'.languages language = some langCode ∧
      st'.keyboards langCode = some rows ∧
      (st'.leftRights langCode).isSome = true ∧
      (st'.ignores langCode).isSome = true ∧
      (∀ l r, leftKeys = some l → rightKeys = some r →
        st'.leftRights langCode = some (l, r)) ∧
      (∀ ig, ignoring = some ig → st'.ignores langCode = some ig)) := by
  have hset : ∀ {α : Type} (m : Str → Option α) (key : Str) (v : α),
      mapSet m key v key = some v := by
    intro α m key v
    unfold mapSet
    rw [if_pos rfl]
  have hsetdef : ∀ {α : Type} (m : Str → Option α) (key : Str) (v : α),
      (mapSetdefault m key v key).isSome = true := by
    intro α m key v
    unfold mapSetdefault
    by_cases hm : (m key).isSome
    · rw [if_pos hm]
      exact hm
    · rw [if_neg hm, hset]
      rfl
  unfold registerKeyboardLayout
  rcases hL : st.languages language with _ | c
  · simp only [Bool.false_eq_true, reduceIte]
    refine ⟨⟨fun ⟨e, he⟩ => absurd he (by simp), fun ⟨c, hc, _⟩ => Option.noConfusion hc⟩, ?_⟩
    intro st' hok
    injection hok with h'
    subst h'
    refine ⟨hset _ _ _, hset _ _ _, ?_, ?_, ?_, ?_⟩
    · rcases leftKeys with _ | l <;> rcases rightKeys with _ | r <;>
        simp [hset, hsetdef]
    · rcases ignoring with _ | ig <;> simp [hset, hsetdef]
    · intro l r hl hr
      subst hl
      subst hr
      simp [hset]
    · intro ig hig
      subst hig
      simp [hset]
  · by_cases hc : c = langCode
    · subst hc
      rw [if_neg (by simp)]
      refine ⟨⟨fun ⟨e, he⟩ => absurd he (by simp), ?_⟩, ?_⟩
      · intro ⟨c', hc', hne⟩
        injection hc' with h'
        exact absurd h'.symm hne
      · intro st' hok
        injection hok with h'
        subst h'
        refine ⟨hset _ _ _, hset _ _ _, ?_, ?_, ?_, ?_⟩
        · rcases leftKeys with _ | l <;> rcases rightKeys with _ | r <;>
            simp [hset, hsetdef]
        · rcases ignoring with _ | ig <;> simp [hset, hsetdef]
        · intro l r hl hr
          subst hl
          subst hr
          simp [hset]
        · intro ig hig
          subst hig
          simp [hset]
    · rw [if_pos (by simp [hc])]
      refine ⟨⟨fun _ => ⟨c, rfl, hc⟩, fun _ => ⟨_, rfl⟩⟩, ?_⟩
      intro st' hok
      exact absurd hok (by simp)

/-- A registry with no entries, for the registration witness. -/
def emptyRegistry : Registry := ⟨fun _ => none, fun _ => none, fun _ => none, fun _ => none⟩

/-- The registry produced by one successful registration call. -/
def registeredExample : Registry :=
  match registerKeyboardLayout emptyRegistry "pl-custom".toList "polish-custom".toList
      polishKeyboard (some polishLeftRight.1) (some polishLeftRight.2)
      (some polishIgnoreSet) with
  | Except.ok s => s
  | Except.error _ => emptyRegistry

/-- Witness for C9: registering a fresh language succeeds and installs
the mapping, layout, hand partition, and ignore set. -/
theorem register_layout_spec_witness :
    registeredExample.languages "polish-custom".toList = some "pl-custom".toList ∧
    registeredExample.keyboards "pl-custom".toList = some polishKeyboard ∧
    registeredExample.leftRights "pl-custom".toList
      = some (polishLeftRight.1, polishLeftRight.2) ∧
    registeredExample.ignores "pl-custom".toList = some polishIgnoreSet := by
  have h := (register_layout_spec emptyRegistry "pl-custom".toList "polish-custom".toList
      polishKeyboard (some polishLeftRight.1) (some polishLeftRight.2)
      (some polishIgnoreSet)).2 registeredExample rfl
  exact ⟨h.1, h.2.1, h.2.2.2.2.1 _ _ rfl rfl, h.2.2.2.2.2 _ rfl⟩
